import Mathlib

/-!
# Verification of the Q-WeldGuards quantum-exercise notebooks

A shallow embedding of the PennyLane/NumPy code of the repository
`QML-for-Conspicuity-Detection-in-Production__Q-WeldGuards`.

Quantum states on `n` wires are state vectors `Fin (2^n) → ℂ`, indexed in
PennyLane's convention: wire 0 is the most significant bit of the index.
Single-qubit gates are 2×2 complex matrices applied on a wire; `qml.CNOT`
and the controlled rotations act through the control bit of the index.
Classical post-processing (loss, accuracy, normalisation) is embedded over
`ℝ`/`ℂ` lists; NumPy's global random generator is embedded as an explicit
stream `ℕ → ℝ` of draws together with a position counter.
-/

noncomputable section
namespace QWeldGuard

open Complex

/-! ## State-vector simulator core -/

/-- The bit of wire `w` in basis-state index `i` (wire 0 is the MSB). -/
def wireBit (n w i : ℕ) : ℕ := i / 2 ^ (n - 1 - w) % 2

/-- Flip the bit of wire `w` in a basis-state index. -/
def flipWire (n w : ℕ) (i : Fin (2 ^ n)) : Fin (2 ^ n) :=
  ⟨(if wireBit n w i.val = 0 then i.val + 2 ^ (n - 1 - w) else i.val - 2 ^ (n - 1 - w)) % 2 ^ n,
   Nat.mod_lt _ (pow_pos (by norm_num) n)⟩

/-- Apply a single-qubit gate `U` on wire `w` of an `n`-wire state. -/
def applyGate1 (n : ℕ) (U : Matrix (Fin 2) (Fin 2) ℂ) (w : ℕ)
    (ψ : Fin (2 ^ n) → ℂ) : Fin (2 ^ n) → ℂ :=
  fun i =>
    if wireBit n w i.val = 0 then U 0 0 * ψ i + U 0 1 * ψ (flipWire n w i)
    else U 1 0 * ψ (flipWire n w i) + U 1 1 * ψ i

/-- Gate `qml.CNOT(wires=[c, t])`. -/
def applyCNOT (n c t : ℕ) (ψ : Fin (2 ^ n) → ℂ) : Fin (2 ^ n) → ℂ :=
  fun i => ψ (if wireBit n c i.val = 1 then flipWire n t i else i)

/-- A controlled single-qubit gate (`qml.CRX` / `qml.CRY` / `qml.CRZ`). -/
def applyCtrl (n : ℕ) (U : Matrix (Fin 2) (Fin 2) ℂ) (c t : ℕ)
    (ψ : Fin (2 ^ n) → ℂ) : Fin (2 ^ n) → ℂ :=
  fun i => if wireBit n c i.val = 1 then applyGate1 n U t ψ i else ψ i

/-- The computational basis state with index `k`. -/
def basisVec (n k : ℕ) : Fin (2 ^ n) → ℂ := fun i => if i.val = k then 1 else 0

/-- Measurement `qml.probs()`: the vector of measurement-outcome probabilities. -/
def probs (n : ℕ) (ψ : Fin (2 ^ n) → ℂ) : Fin (2 ^ n) → ℝ :=
  fun i => Complex.normSq (ψ i)

/-! ## Gate matrices -/

/-- Gate `qml.PauliX`. -/
def Xmat : Matrix (Fin 2) (Fin 2) ℂ := !![0, 1; 1, 0]

/-- Gate `qml.Hadamard`. -/
def Hmat : Matrix (Fin 2) (Fin 2) ℂ :=
  !![((Real.sqrt 2)⁻¹ : ℝ), ((Real.sqrt 2)⁻¹ : ℝ);
     ((Real.sqrt 2)⁻¹ : ℝ), -((Real.sqrt 2)⁻¹ : ℝ)]

/-- Gate `qml.RX(θ)`. -/
def RXmat (θ : ℝ) : Matrix (Fin 2) (Fin 2) ℂ :=
  !![(Real.cos (θ / 2) : ℝ), -Complex.I * (Real.sin (θ / 2) : ℝ);
     -Complex.I * (Real.sin (θ / 2) : ℝ), (Real.cos (θ / 2) : ℝ)]

/-- Gate `qml.RY(θ)`. -/
def RYmat (θ : ℝ) : Matrix (Fin 2) (Fin 2) ℂ :=
  !![(Real.cos (θ / 2) : ℝ), -(Real.sin (θ / 2) : ℝ);
     (Real.sin (θ / 2) : ℝ), (Real.cos (θ / 2) : ℝ)]

/-- Gate `qml.RZ(θ)`. -/
def RZmat (θ : ℝ) : Matrix (Fin 2) (Fin 2) ℂ :=
  !![Complex.exp (-(θ / 2 : ℝ) * Complex.I), 0;
     0, Complex.exp ((θ / 2 : ℝ) * Complex.I)]

/-- Gate `qml.Rot(φ, θ, ω) = RZ(ω)·RY(θ)·RZ(φ)` (the rightmost factor acts first). -/
def RotMat (φ θ ω : ℝ) : Matrix (Fin 2) (Fin 2) ℂ := RZmat ω * RYmat θ * RZmat φ

/-- The amplitude `1/√2`. -/
def invSqrt2 : ℂ := ((Real.sqrt 2)⁻¹ : ℝ)

/-! ## `Multi-Qubit_Gate_Challenge.ipynb`: Bell-basis preparation (2 wires) -/

/-- Circuit `prepare_psi_plus`: `Hadamard(0); CNOT([0,1])` on `|00⟩`, returning `qml.state()`. -/
def prepare_psi_plus : Fin (2 ^ 2) → ℂ :=
  applyCNOT 2 0 1 (applyGate1 2 Hmat 0 (basisVec 2 0))

/-- Circuit `prepare_psi_minus`: `PauliX(0); Hadamard(0); CNOT([0,1])` on `|00⟩`. -/
def prepare_psi_minus : Fin (2 ^ 2) → ℂ :=
  applyCNOT 2 0 1 (applyGate1 2 Hmat 0 (applyGate1 2 Xmat 0 (basisVec 2 0)))

/-- Circuit `prepare_phi_plus`: `Hadamard(1); PauliX(0); CNOT([1,0])` on `|00⟩`. -/
def prepare_phi_plus : Fin (2 ^ 2) → ℂ :=
  applyCNOT 2 1 0 (applyGate1 2 Xmat 0 (applyGate1 2 Hmat 1 (basisVec 2 0)))

/-- Circuit `prepare_phi_minus`: `PauliX(1); Hadamard(1); PauliX(0); PauliX(1); CNOT([1,0])` on `|00⟩`. -/
def prepare_phi_minus : Fin (2 ^ 2) → ℂ :=
  applyCNOT 2 1 0 (applyGate1 2 Xmat 1 (applyGate1 2 Xmat 0
    (applyGate1 2 Hmat 1 (applyGate1 2 Xmat 1 (basisVec 2 0)))))

/-! ## Probability-vector circuits -/

/-- Codercise `apply_h_and_measure`: optionally prepare `|1⟩`,
apply a Hadamard, and return `qml.probs(wires=0)` on the 1-wire device. -/
def apply_h_and_measure (state : ℕ) : Fin (2 ^ 1) → ℝ :=
  probs 1 (applyGate1 1 Hmat 0
    (if state = 1 then applyGate1 1 Xmat 0 (basisVec 1 0) else basisVec 1 0))

/-- Circuit `controlled_rotations` (`All_Ties_Up.ipynb`): `Hadamard(0); CRX(θ,[0,1]);
CRY(φ,[1,2]); CRZ(ω,[2,0])` on 3 wires, returning `qml.probs()`. -/
def controlled_rotations (θ φ ω : ℝ) : Fin (2 ^ 3) → ℝ :=
  probs 3 (applyCtrl 3 (RZmat ω) 2 0 (applyCtrl 3 (RYmat φ) 1 2
    (applyCtrl 3 (RXmat θ) 0 1 (applyGate1 3 Hmat 0 (basisVec 3 0)))))

/-- Circuit `my_circuit` (`Quantum_Circuits.ipynb`): `RX(θ,0); RY(φ,1); RZ(ω,2)`
followed by the CNOT chain `(0,1),(1,2),(2,0)`, returning
`qml.probs(wires=[0,1,2])`. -/
def my_circuit (θ φ ω : ℝ) : Fin (2 ^ 3) → ℝ :=
  probs 3 (applyCNOT 3 2 0 (applyCNOT 3 1 2 (applyCNOT 3 0 1
    (applyGate1 3 (RZmat ω) 2 (applyGate1 3 (RYmat φ) 1
      (applyGate1 3 (RXmat θ) 0 (basisVec 3 0)))))))

/-! ## `Parity_Classification.ipynb`: the variational classifier -/

/-- The basis-state index encoded by a 4-bit input (`x 0` goes to wire 0, the MSB). -/
def basisIdx (x : Fin 4 → Bool) : ℕ :=
  8 * (x 0).toNat + 4 * (x 1).toNat + 2 * (x 2).toNat + (x 3).toNat

/-- Encoding `state_preparation(x)`: `qml.BasisState(x, wires=[0, 1, 2, 3])`. -/
def state_preparation (x : Fin 4 → Bool) : Fin (2 ^ 4) → ℂ := basisVec 4 (basisIdx x)

/-- One `layer(layer_weights)` call: one `qml.Rot(*layer_weights[wire])` on each of the
wires 0,1,2,3, then the CNOT ring on `(0,1), (1,2), (2,3), (3,0)`. -/
def layer (lw : Fin 4 → Fin 3 → ℝ) (ψ : Fin (2 ^ 4) → ℂ) : Fin (2 ^ 4) → ℂ :=
  applyCNOT 4 3 0 (applyCNOT 4 2 3 (applyCNOT 4 1 2 (applyCNOT 4 0 1
    (applyGate1 4 (RotMat (lw 3 0) (lw 3 1) (lw 3 2)) 3
      (applyGate1 4 (RotMat (lw 2 0) (lw 2 1) (lw 2 2)) 2
        (applyGate1 4 (RotMat (lw 1 0) (lw 1 1) (lw 1 2)) 1
          (applyGate1 4 (RotMat (lw 0 0) (lw 0 1) (lw 0 2)) 0 ψ)))))))

/-- Measurement `qml.expval(qml.PauliZ(0))`: the `PauliZ` expectation on wire 0. -/
def expvalZ0 (ψ : Fin (2 ^ 4) → ℂ) : ℝ :=
  ∑ i, (if wireBit 4 0 i.val = 0 then (1 : ℝ) else -1) * Complex.normSq (ψ i)

/-- Circuit `circuit(weights, x)`: basis-state encoding, then one `layer` per row of
`weights`, then the `PauliZ(0)` expectation value. -/
def circuit (weights : List (Fin 4 → Fin 3 → ℝ)) (x : Fin 4 → Bool) : ℝ :=
  expvalZ0 (weights.foldl (fun ψ lw => layer lw ψ) (state_preparation x))

/-- Classifier output `variational_classifier(weights, bias, x) = circuit(weights, x) + bias`. -/
def variational_classifier (weights : List (Fin 4 → Fin 3 → ℝ)) (bias : ℝ)
    (x : Fin 4 → Bool) : ℝ :=
  circuit weights x + bias

/-! ### The queue of operations of one `circuit` call -/

/-- An operation queued on the device by a `circuit(weights, x)` call. -/
inductive PGate where
  | basisState (x : Fin 4 → Bool)
  | rot (phi theta omega : ℝ) (wire : ℕ)
  | cnot (c t : ℕ)

/-- The operations queued by one `layer(layer_weights)` call. -/
def layerOps (lw : Fin 4 → Fin 3 → ℝ) : List PGate :=
  [PGate.rot (lw 0 0) (lw 0 1) (lw 0 2) 0,
   PGate.rot (lw 1 0) (lw 1 1) (lw 1 2) 1,
   PGate.rot (lw 2 0) (lw 2 1) (lw 2 2) 2,
   PGate.rot (lw 3 0) (lw 3 1) (lw 3 2) 3,
   PGate.cnot 0 1, PGate.cnot 1 2, PGate.cnot 2 3, PGate.cnot 3 0]

/-- The full queue of a `circuit(weights, x)` call: the basis-state
preparation followed by the operations of the `layer` calls, in order. -/
def circuitOps (weights : List (Fin 4 → Fin 3 → ℝ)) (x : Fin 4 → Bool) : List PGate :=
  PGate.basisState x :: (weights.map layerOps).flatten

/-- Device semantics of one queued operation. -/
def applyOp (g : PGate) (ψ : Fin (2 ^ 4) → ℂ) : Fin (2 ^ 4) → ℂ :=
  match g with
  | PGate.basisState x => state_preparation x
  | PGate.rot a b c w => applyGate1 4 (RotMat a b c) w ψ
  | PGate.cnot c t => applyCNOT 4 c t ψ

/-- Run a queue of operations on a state. -/
def runOps (gs : List PGate) (ψ : Fin (2 ^ 4) → ℂ) : Fin (2 ^ 4) → ℂ :=
  gs.foldl (fun φ g => applyOp g φ) ψ

/-! ### Classical post-processing -/

/-- Loss `square_loss(labels, predictions) = np.mean((labels - stack(predictions))**2)`:
the sum of squared differences divided by the number of pairs. -/
def square_loss (labels predictions : List ℝ) : ℝ :=
  (List.zipWith (fun l p => (l - p) ^ 2) labels predictions).sum /
    (List.zipWith (fun l p => (l - p) ^ 2) labels predictions).length

/-- Metric `accuracy(labels, predictions)`: the number of zipped pairs at distance
less than `1e-5`, divided by `len(labels)`. -/
def accuracy (labels predictions : List ℝ) : ℝ :=
  (((labels.zip predictions).countP fun lp => decide (|lp.1 - lp.2| < 1 / 100000)) : ℝ) /
    labels.length

/-- Objective `cost(weights, bias, X, Y)`: the square loss of the classifier outputs
over the whole batch. -/
def cost (weights : List (Fin 4 → Fin 3 → ℝ)) (bias : ℝ)
    (X : List (Fin 4 → Bool)) (Y : List ℝ) : ℝ :=
  square_loss Y (X.map fun x => variational_classifier weights bias x)

/-! ### The 60-step training loop

`np.random` is modelled by a stream of draws and a position; the external
`NesterovMomentumOptimizer` is abstracted as a step function `optStep` that
takes its internal state and the current parameters and batch and returns
the updated parameters and internal state. -/

/-- The mutable variables of the training loop, plus the data it reads. -/
structure TrainState (O : Type) where
  weights : List (Fin 4 → Fin 3 → ℝ)
  bias : ℝ
  X : List (Fin 4 → Bool)
  Y : List ℝ
  batchSize : ℕ
  rngPos : ℕ
  optState : O

/-- Sampling `np.random.randint(0, len, (bs,))`: `bs` independent draws (with
replacement), each reduced to `[0, len)`. -/
def batchIndices (len bs pos : ℕ) (rng : ℕ → ℕ) : List ℕ :=
  (List.range bs).map fun j => rng (pos + j) % len

/-- One iteration of the training loop: sample `batch_index`, gather
`X_batch`/`Y_batch`, and take one optimizer step; only `weights`, `bias`, the
optimizer's internal state and the RNG position change. -/
def trainIter {O : Type} (rng : ℕ → ℕ)
    (optStep : O → List (Fin 4 → Fin 3 → ℝ) → ℝ → List (Fin 4 → Bool) → List ℝ →
      List (Fin 4 → Fin 3 → ℝ) × ℝ × O)
    (s : TrainState O) : TrainState O :=
  let batch := batchIndices s.X.length s.batchSize s.rngPos rng
  let Xb := batch.filterMap fun i => s.X.get? i
  let Yb := batch.filterMap fun i => s.Y.get? i
  let r := optStep s.optState s.weights s.bias Xb Yb
  ⟨r.1, r.2.1, s.X, s.Y, s.batchSize, s.rngPos + s.batchSize, r.2.2⟩

/-- Loop `for it in range(60)`: the full training loop. -/
def trainLoop {O : Type} (rng : ℕ → ℕ)
    (optStep : O → List (Fin 4 → Fin 3 → ℝ) → ℝ → List (Fin 4 → Bool) → List ℝ →
      List (Fin 4 → Fin 3 → ℝ) × ℝ × O)
    (s : TrainState O) : TrainState O :=
  (trainIter rng optStep)^[60] s

/-! ### `All_About_Qubits.ipynb`: `normalize_state` and `measure_state` -/

/-- Function `normalize_state(alpha, beta)`: `psi / np.linalg.norm(psi)` with
`np.linalg.norm psi = √(|α|² + |β|²)`. The library division is modelled as
fallible: it fails exactly when the divisor is the zero norm. -/
def normalize_state (alpha beta : ℂ) : Option (ℂ × ℂ) :=
  if Real.sqrt (Complex.normSq alpha + Complex.normSq beta) = 0 then none
  else some (alpha / ((Real.sqrt (Complex.normSq alpha + Complex.normSq beta) : ℝ) : ℂ),
             beta / ((Real.sqrt (Complex.normSq alpha + Complex.normSq beta) : ℝ) : ℂ))

/-- Sampler `measure_state(state, num_meas)`: `prob_0 = np.linalg.norm(state[0])**2`;
each of the `num_meas` outcomes is 0 when the next `np.random.random()` draw
is below `prob_0` and 1 otherwise. NumPy's global generator is embedded as
the draw stream `rng` and the current position `pos`; the call returns the
outcome list together with the advanced position. -/
def measure_state (state : ℂ × ℂ) (num_meas : ℕ) (rng : ℕ → ℝ) (pos : ℕ) :
    List ℕ × ℕ :=
  (((List.range num_meas).map fun i =>
      if rng (pos + i) < Complex.normSq state.1 then 0 else 1),
   pos + num_meas)

/-- A concrete draw stream: 0 on the first draw, 0.9 afterwards. -/
def rngCE : ℕ → ℝ := fun n => if n = 0 then 0 else 9 / 10

/-- The test state `np.array([0.707, 0.707])` of the notebook. -/
def stateCE : ℂ × ℂ := (((707 / 1000 : ℝ) : ℂ), ((707 / 1000 : ℝ) : ℂ))

/-- Concrete training-loop state for the frame witness. -/
def sW : TrainState Unit :=
  ⟨[], 0, [fun _ => false], [1], 5, 0, ()⟩

/-- Concrete RNG for the frame witness. -/
def rngW : ℕ → ℕ := fun _ => 0

/-- Concrete optimizer step for the frame witness. -/
def optW : Unit → List (Fin 4 → Fin 3 → ℝ) → ℝ → List (Fin 4 → Bool) → List ℝ →
    List (Fin 4 → Fin 3 → ℝ) × ℝ × Unit :=
  fun o w b _ _ => (w, b, o)

/-! ## Helper lemmas -/

/-- The squared modulus of a pure phase `e^{it}` is 1. -/
theorem normSq_exp_I (t : ℝ) : Complex.normSq (Complex.exp ((t : ℂ) * Complex.I)) = 1 := by
  rw [Complex.normSq_eq_abs, Complex.abs_exp]
  simp

/-- Value `|cos(x/2)|²` of the complexified half angle, in real terms. -/
theorem normSq_cos_half (x : ℝ) :
    Complex.normSq (Complex.cos ((x : ℂ) / 2)) = Real.cos (x / 2) ^ 2 := by
  rw [show ((x : ℂ) / 2) = ((x / 2 : ℝ) : ℂ) by push_cast; ring,
    ← Complex.ofReal_cos, Complex.normSq_ofReal, sq]

/-- Value `|sin(x/2)|²` of the complexified half angle, in real terms. -/
theorem normSq_sin_half (x : ℝ) :
    Complex.normSq (Complex.sin ((x : ℂ) / 2)) = Real.sin (x / 2) ^ 2 := by
  rw [show ((x : ℂ) / 2) = ((x / 2 : ℝ) : ℂ) by push_cast; ring,
    ← Complex.ofReal_sin, Complex.normSq_ofReal, sq]

/-- Identity `|e^{ix/2}|² = 1` in the shape produced by cast-pushing. -/
theorem normSq_exp_half_I (x : ℝ) :
    Complex.normSq (Complex.exp ((x : ℂ) / 2 * Complex.I)) = 1 := by
  rw [show ((x : ℂ) / 2) = ((x / 2 : ℝ) : ℂ) by push_cast; ring, normSq_exp_I]

/-- Identity `|e^{-ix/2}|² = 1` in the shape produced by cast-pushing. -/
theorem normSq_exp_neg_half_I (x : ℝ) :
    Complex.normSq (Complex.exp (-((x : ℂ) / 2 * Complex.I))) = 1 := by
  rw [show -((x : ℂ) / 2 * Complex.I) = ((-(x / 2) : ℝ) : ℂ) * Complex.I by push_cast; ring,
    normSq_exp_I]

/-- Running a concatenated queue runs the two parts in order. -/
theorem runOps_append (gs hs : List PGate) (ψ : Fin (2 ^ 4) → ℂ) :
    runOps (gs ++ hs) ψ = runOps hs (runOps gs ψ) :=
  List.foldl_append _ _ _ _

/-- Running the queued layers equals folding `layer` over the weights. -/
theorem runOps_layers (weights : List (Fin 4 → Fin 3 → ℝ)) (ψ : Fin (2 ^ 4) → ℂ) :
    runOps (weights.map layerOps).flatten ψ = weights.foldl (fun φ lw => layer lw φ) ψ := by
  induction weights generalizing ψ with
  | nil => rfl
  | cons lw rest ih =>
    rw [List.map_cons, List.flatten_cons, runOps_append, ih]
    rfl

/-- The summed squared differences are non-negative. -/
theorem zipWith_sq_sum_nonneg (l p : List ℝ) :
    0 ≤ (List.zipWith (fun a b => (a - b) ^ 2) l p).sum := by
  induction l generalizing p with
  | nil => simp
  | cons a l ih =>
    cases p with
    | nil => simp
    | cons b p =>
      rw [List.zipWith_cons_cons, List.sum_cons]
      exact add_nonneg (sq_nonneg _) (ih p)

/-! ## Claim theorems -/

/-- C1: for every weights tensor, bias and 4-bit input, the classifier output
is the circuit value plus the bias, where the circuit is the basis-state
preparation of `x`, then the parameterized layers in order, then the `PauliZ`
expectation on wire 0 — and nothing else is applied to the output. -/
theorem variational_classifier_pipeline (weights : List (Fin 4 → Fin 3 → ℝ))
    (bias : ℝ) (x : Fin 4 → Bool) :
    variational_classifier weights bias x = circuit weights x + bias ∧
    circuit weights x =
      expvalZ0 (weights.foldl (fun ψ lw => layer lw ψ) (state_preparation x)) :=
  ⟨rfl, rfl⟩

/-- C2: the parity circuit queues the basis-state preparation followed by
exactly `weights.length` layers, each one `qml.Rot` per wire 0..3 followed by
the CNOT ring `(0,1),(1,2),(2,3),(3,0)`; the queued unitary gates after the
preparation do not depend on the input `x`; and running the queue on the
device computes exactly `circuit weights x`. -/
theorem parity_circuit_fixed_structure (weights : List (Fin 4 → Fin 3 → ℝ))
    (x x' : Fin 4 → Bool) :
    circuit weights x = expvalZ0 (runOps (circuitOps weights x) (basisVec 4 0)) ∧
    circuitOps weights x = PGate.basisState x :: (weights.map layerOps).flatten ∧
    (weights.map layerOps).length = weights.length ∧
    (∀ lw : Fin 4 → Fin 3 → ℝ, layerOps lw =
      [PGate.rot (lw 0 0) (lw 0 1) (lw 0 2) 0,
       PGate.rot (lw 1 0) (lw 1 1) (lw 1 2) 1,
       PGate.rot (lw 2 0) (lw 2 1) (lw 2 2) 2,
       PGate.rot (lw 3 0) (lw 3 1) (lw 3 2) 3,
       PGate.cnot 0 1, PGate.cnot 1 2, PGate.cnot 2 3, PGate.cnot 3 0]) ∧
    (circuitOps weights x).tail = (circuitOps weights x').tail := by
  refine ⟨?_, rfl, weights.length_map _, fun _ => rfl, rfl⟩
  show circuit weights x =
    expvalZ0 (runOps ((weights.map layerOps).flatten) (state_preparation x))
  rw [runOps_layers]
  rfl

/-- C3: every probability vector returned by a circuit evaluation has
non-negative entries summing to one: `apply_h_and_measure` returns a length-2
probability vector, and `controlled_rotations` and `my_circuit` return
length-8 probability vectors, for all inputs and angles. -/
theorem circuit_probability_vectors :
    (∀ state : ℕ, (∀ i : Fin 2, 0 ≤ apply_h_and_measure state i) ∧
      ∑ i : Fin 2, apply_h_and_measure state i = 1) ∧
    (∀ θ φ ω : ℝ, (∀ i : Fin 8, 0 ≤ controlled_rotations θ φ ω i) ∧
      ∑ i : Fin 8, controlled_rotations θ φ ω i = 1) ∧
    (∀ θ φ ω : ℝ, (∀ i : Fin 8, 0 ≤ my_circuit θ φ ω i) ∧
      ∑ i : Fin 8, my_circuit θ φ ω i = 1) := by
  refine ⟨fun state => ⟨fun i => Complex.normSq_nonneg _, ?_⟩,
    fun θ φ ω => ⟨fun i => Complex.normSq_nonneg _, ?_⟩,
    fun θ φ ω => ⟨fun i => Complex.normSq_nonneg _, ?_⟩⟩
  · by_cases hs : state = 1 <;>
      · simp [Fin.sum_univ_two, apply_h_and_measure, probs, applyGate1, basisVec,
          flipWire, wireBit, Hmat, Xmat, hs, Complex.normSq_ofReal, Fin.coe_ofNat_eq_mod]
        norm_num
  · simp [Fin.sum_univ_eight, controlled_rotations, probs, applyCtrl,
      applyGate1, basisVec, flipWire, wireBit, Hmat, RXmat, RYmat, RZmat,
      Complex.normSq_ofReal, Complex.normSq_mul, normSq_exp_half_I, normSq_exp_neg_half_I,
      normSq_cos_half, normSq_sin_half, Fin.coe_ofNat_eq_mod]
    nlinarith [Real.sin_sq_add_cos_sq (θ / 2), Real.sin_sq_add_cos_sq (φ / 2),
      sq_nonneg (Real.sin (θ / 2)), sq_nonneg (Real.cos (φ / 2))]
  · simp [Fin.sum_univ_eight, my_circuit, probs, applyCNOT,
      applyGate1, basisVec, flipWire, wireBit, RXmat, RYmat, RZmat,
      Complex.normSq_ofReal, Complex.normSq_mul, normSq_exp_half_I, normSq_exp_neg_half_I,
      normSq_cos_half, normSq_sin_half, Fin.coe_ofNat_eq_mod]
    nlinarith [Real.sin_sq_add_cos_sq (θ / 2), Real.sin_sq_add_cos_sq (φ / 2),
      sq_nonneg (Real.sin (θ / 2)), sq_nonneg (Real.cos (φ / 2))]

/-- C4 (counterexample): the sampler `measure_state` is not deterministic across repeated
calls on the same input: on the notebook's own test state with the draw
stream `rngCE`, a first call returns `[0]` and the immediately following call
(at the advanced RNG position) returns `[1]`. -/
theorem measure_state_repeated_evaluation_differs :
    (measure_state stateCE 1 rngCE 0).1 ≠
      (measure_state stateCE 1 rngCE (measure_state stateCE 1 rngCE 0).2).1 := by
  have h1 : (measure_state stateCE 1 rngCE 0).1 = [0] := by
    norm_num [measure_state, rngCE, stateCE, Complex.normSq_ofReal, List.range_succ]
  have h2 : (measure_state stateCE 1 rngCE (measure_state stateCE 1 rngCE 0).2).1 = [1] := by
    norm_num [measure_state, rngCE, stateCE, Complex.normSq_ofReal, List.range_succ]
  rw [h1, h2]
  simp

/-- C4 (amended): the pure circuit evaluations are deterministic, and the
measurement codercises are deterministic only as functions of the consumed
RNG draws: two `measure_state` calls whose consumed draws agree produce the
same outcomes, and each call advances the generator by exactly `num_meas`
positions (state that persists to the next call in the session). -/
theorem measure_state_deterministic_given_rng (state : ℂ × ℂ) (n : ℕ)
    (rng rng' : ℕ → ℝ) (pos pos' : ℕ)
    (h : ∀ i < n, rng (pos + i) = rng' (pos' + i)) :
    (measure_state state n rng pos).1 = (measure_state state n rng' pos').1 ∧
    (measure_state state n rng pos).2 = pos + n := by
  refine ⟨?_, rfl⟩
  simp only [measure_state]
  exact List.map_congr_left fun i hi => by rw [h i (List.mem_range.mp hi)]

/-- Witness for the amended C4 at a concrete input. -/
theorem measure_state_deterministic_given_rng_witness :
    (∀ i < 1, (fun _ => (0 : ℝ)) (0 + i) = (fun _ => (0 : ℝ)) (5 + i)) ∧
    ((measure_state (1, 0) 1 (fun _ => 0) 0).1 =
        (measure_state (1, 0) 1 (fun _ => 0) 5).1 ∧
      (measure_state (1, 0) 1 (fun _ => 0) 0).2 = 0 + 1) :=
  ⟨fun _ _ => rfl,
   measure_state_deterministic_given_rng (1, 0) 1 (fun _ => 0) (fun _ => 0) 0 5
     fun _ _ => rfl⟩

/-- C5: the loss `square_loss` is the mean of the squared differences over the zipped
pairs (for equal-length inputs the divisor is `len(labels)`), it is
non-negative, and `cost` is exactly the square loss of the classifier outputs
on the batch. -/
theorem square_loss_mean_nonneg_and_cost (labels predictions : List ℝ)
    (h : labels.length = predictions.length) :
    square_loss labels predictions =
      (List.zipWith (fun l p => (l - p) ^ 2) labels predictions).sum / labels.length ∧
    0 ≤ square_loss labels predictions ∧
    ∀ (w : List (Fin 4 → Fin 3 → ℝ)) (b : ℝ) (X : List (Fin 4 → Bool)) (Y : List ℝ),
      cost w b X Y = square_loss Y (X.map fun x => variational_classifier w b x) := by
  refine ⟨?_, ?_, fun _ _ _ _ => rfl⟩
  · rw [square_loss, List.length_zipWith, h, min_self]
  · exact div_nonneg (zipWith_sq_sum_nonneg _ _) (Nat.cast_nonneg _)

/-- Witness for C5 at a concrete input. -/
theorem square_loss_witness :
    ([(1 : ℝ), -1].length = [(0 : ℝ), 1].length) ∧
    (square_loss [(1 : ℝ), -1] [(0 : ℝ), 1] = 5 / 2 ∧
      0 ≤ square_loss [(1 : ℝ), -1] [(0 : ℝ), 1]) := by
  have h := square_loss_mean_nonneg_and_cost [(1 : ℝ), -1] [(0 : ℝ), 1] rfl
  refine ⟨rfl, ?_, h.2.1⟩
  rw [h.1]
  norm_num [List.zipWith]

/-- C6: each iteration of the 60-step loop changes only the weights, the
bias, the optimizer's internal state and the RNG position: the inputs `X`,
the labels `Y` and the batch size are unchanged by every iteration (hence by
the whole loop), and the sampled batch consists of `batchSize` indices, each
below `len(X)`, drawn independently with replacement. -/
theorem training_iteration_frame {O : Type} (rng : ℕ → ℕ)
    (optStep : O → List (Fin 4 → Fin 3 → ℝ) → ℝ → List (Fin 4 → Bool) → List ℝ →
      List (Fin 4 → Fin 3 → ℝ) × ℝ × O)
    (s : TrainState O) :
    (trainIter rng optStep s).X = s.X ∧
    (trainIter rng optStep s).Y = s.Y ∧
    (trainIter rng optStep s).batchSize = s.batchSize ∧
    (trainLoop rng optStep s).X = s.X ∧
    (trainLoop rng optStep s).Y = s.Y ∧
    (trainLoop rng optStep s).batchSize = s.batchSize ∧
    (0 < s.X.length →
      (batchIndices s.X.length s.batchSize s.rngPos rng).length = s.batchSize ∧
      ∀ j ∈ batchIndices s.X.length s.batchSize s.rngPos rng, j < s.X.length) := by
  have hiter : ∀ (k : ℕ) (t : TrainState O),
      ((trainIter rng optStep)^[k] t).X = t.X ∧
      ((trainIter rng optStep)^[k] t).Y = t.Y ∧
      ((trainIter rng optStep)^[k] t).batchSize = t.batchSize := by
    intro k
    induction k with
    | zero => exact fun t => ⟨rfl, rfl, rfl⟩
    | succ m ih =>
      intro t
      rw [Function.iterate_succ_apply]
      exact ih (trainIter rng optStep t)
  refine ⟨rfl, rfl, rfl, (hiter 60 s).1, (hiter 60 s).2.1, (hiter 60 s).2.2, fun hlen => ⟨?_, ?_⟩⟩
  · simp [batchIndices]
  · intro j hj
    simp only [batchIndices, List.mem_map] at hj
    obtain ⟨a, _, rfl⟩ := hj
    exact Nat.mod_lt _ hlen

/-- Witness for C6 at a concrete training state. -/
theorem training_frame_witness :
    0 < sW.X.length ∧
    ((trainIter rngW optW sW).X = sW.X ∧
      (trainIter rngW optW sW).Y = sW.Y ∧
      (trainIter rngW optW sW).batchSize = sW.batchSize ∧
      (trainLoop rngW optW sW).X = sW.X ∧
      (trainLoop rngW optW sW).Y = sW.Y ∧
      (trainLoop rngW optW sW).batchSize = sW.batchSize ∧
      ((batchIndices sW.X.length sW.batchSize sW.rngPos rngW).length = sW.batchSize ∧
        ∀ j ∈ batchIndices sW.X.length sW.batchSize sW.rngPos rngW, j < sW.X.length)) := by
  have h := training_iteration_frame rngW optW sW
  exact ⟨by simp [sW], h.1, h.2.1, h.2.2.1, h.2.2.2.1, h.2.2.2.2.1, h.2.2.2.2.2.1,
    h.2.2.2.2.2.2 (by simp [sW])⟩

/-- C7: the four Bell-basis preparation circuits return the four Bell state
vectors: `prepare_psi_plus` gives `(1/√2)(|00⟩+|11⟩)`, `prepare_psi_minus`
gives `(1/√2)(|00⟩-|11⟩)`, `prepare_phi_plus` gives `(1/√2)(|01⟩+|10⟩)`, and
`prepare_phi_minus` gives `(1/√2)(|01⟩-|10⟩)`. -/
theorem bell_states_correct :
    prepare_psi_plus = ![invSqrt2, 0, 0, invSqrt2] ∧
    prepare_psi_minus = ![invSqrt2, 0, 0, -invSqrt2] ∧
    prepare_phi_plus = ![0, invSqrt2, invSqrt2, 0] ∧
    prepare_phi_minus = ![0, invSqrt2, -invSqrt2, 0] := by
  refine ⟨?_, ?_, ?_, ?_⟩ <;>
  · funext i
    rcases i with ⟨iv, hiv⟩
    interval_cases iv <;>
      simp [prepare_psi_plus, prepare_psi_minus, prepare_phi_plus, prepare_phi_minus,
        applyCNOT, applyGate1, basisVec, flipWire, wireBit, Hmat, Xmat, invSqrt2,
        Fin.coe_ofNat_eq_mod]

/-- C8: no repository-defined error path exists: `normalize_state` (the one
fallible repository function) fails exactly at the library division by the
zero norm, i.e. only on the all-zero input; on every other input it returns a
value. -/
theorem normalize_state_fails_only_at_zero (alpha beta : ℂ) :
    normalize_state alpha beta = none ↔ alpha = 0 ∧ beta = 0 := by
  rw [normalize_state]
  constructor
  · intro h
    by_contra hc
    have hpos : 0 < Complex.normSq alpha + Complex.normSq beta := by
      rcases not_and_or.mp hc with h' | h'
      · exact add_pos_of_pos_of_nonneg (Complex.normSq_pos.mpr h') (Complex.normSq_nonneg _)
      · exact add_pos_of_nonneg_of_pos (Complex.normSq_nonneg _) (Complex.normSq_pos.mpr h')
    rw [if_neg (ne_of_gt (Real.sqrt_pos.mpr hpos))] at h
    exact Option.some_ne_none _ h
  · rintro ⟨rfl, rfl⟩
    simp

/-- C9: on any input that is not both zero, `normalize_state` returns a
2-vector of unit Euclidean norm that is a positive real multiple of the
input; on the all-zero input the unguarded division by the zero norm fails,
so the error branch is reachable at the public interface. -/
theorem normalize_state_normalizes (alpha beta : ℂ) (h : ¬(alpha = 0 ∧ beta = 0)) :
    (∃ a b : ℂ, normalize_state alpha beta = some (a, b) ∧
      Complex.normSq a + Complex.normSq b = 1 ∧
      ∃ c : ℝ, 0 < c ∧ a = (c : ℂ) * alpha ∧ b = (c : ℂ) * beta) ∧
    normalize_state 0 0 = none := by
  have hpos : 0 < Complex.normSq alpha + Complex.normSq beta := by
    rcases not_and_or.mp h with h' | h'
    · exact add_pos_of_pos_of_nonneg (Complex.normSq_pos.mpr h') (Complex.normSq_nonneg _)
    · exact add_pos_of_nonneg_of_pos (Complex.normSq_nonneg _) (Complex.normSq_pos.mpr h')
  have hr : 0 < Real.sqrt (Complex.normSq alpha + Complex.normSq beta) :=
    Real.sqrt_pos.mpr hpos
  refine ⟨⟨alpha / ((Real.sqrt (Complex.normSq alpha + Complex.normSq beta) : ℝ) : ℂ),
    beta / ((Real.sqrt (Complex.normSq alpha + Complex.normSq beta) : ℝ) : ℂ),
    ?_, ?_, ?_⟩, by simp [normalize_state]⟩
  · rw [normalize_state, if_neg (ne_of_gt hr)]
  · rw [Complex.normSq_div, Complex.normSq_div, Complex.normSq_ofReal,
      Real.mul_self_sqrt (le_of_lt hpos), div_add_div_same, div_self (ne_of_gt hpos)]
  · exact ⟨(Real.sqrt (Complex.normSq alpha + Complex.normSq beta))⁻¹,
      inv_pos.mpr hr, by rw [Complex.ofReal_inv]; ring, by rw [Complex.ofReal_inv]; ring⟩

/-- Witness for C9 at a concrete input. -/
theorem normalize_state_witness :
    (¬((1 : ℂ) = 0 ∧ (0 : ℂ) = 0)) ∧
    ((∃ a b : ℂ, normalize_state 1 0 = some (a, b) ∧
        Complex.normSq a + Complex.normSq b = 1 ∧
        ∃ c : ℝ, 0 < c ∧ a = (c : ℂ) * 1 ∧ b = (c : ℂ) * 0) ∧
      normalize_state 0 0 = none) :=
  ⟨by simp, normalize_state_normalizes 1 0 (by simp)⟩

/-- C10: the metric `accuracy` is the number of zipped pairs at distance below `1e-5`
divided by `len(labels)`; the zip truncates to the shorter list while the
divisor stays `len(labels)`; the value is non-negative, and at most 1
whenever `predictions` is at least as long as `labels`. -/
theorem accuracy_fraction_bounds (labels predictions : List ℝ) (h : labels ≠ []) :
    accuracy labels predictions =
      (((labels.zip predictions).countP fun lp => decide (|lp.1 - lp.2| < 1 / 100000)) : ℝ) /
        labels.length ∧
    (labels.zip predictions).length = min labels.length predictions.length ∧
    0 ≤ accuracy labels predictions ∧
    (labels.length ≤ predictions.length → accuracy labels predictions ≤ 1) := by
  refine ⟨rfl, List.length_zip _ _, div_nonneg (Nat.cast_nonneg _) (Nat.cast_nonneg _), ?_⟩
  intro hlen
  rw [accuracy]
  have hpos : (0 : ℝ) < labels.length := by
    have := List.length_pos.mpr h
    exact_mod_cast this
  rw [div_le_one hpos]
  have hcount : ((labels.zip predictions).countP
      fun lp => decide (|lp.1 - lp.2| < 1 / 100000)) ≤ labels.length := by
    calc ((labels.zip predictions).countP fun lp => decide (|lp.1 - lp.2| < 1 / 100000))
        ≤ (labels.zip predictions).length := List.countP_le_length _
      _ ≤ labels.length := by rw [List.length_zip]; exact min_le_left _ _
  exact_mod_cast hcount

/-- Witness for C10 at a concrete input. -/
theorem accuracy_witness :
    (([(0 : ℝ), 1, 5] : List ℝ) ≠ []) ∧
    (accuracy [(0 : ℝ), 1, 5] [0] = 1 / 3 ∧ 0 ≤ accuracy [(0 : ℝ), 1, 5] [0]) := by
  have h := accuracy_fraction_bounds [(0 : ℝ), 1, 5] [0] (by simp)
  refine ⟨by simp, ?_, h.2.2.1⟩
  rw [h.1]
  norm_num [List.countP_cons]

end QWeldGuard
